import Mathlib

/-
Shallow embedding of bufferedstream.js (jeffbski/bufferedstream).

A BufferedStream buffers written chunks and re-emits them on later event-loop
turns.  We model:
  * a chunk as a list of bytes (the string-to-Buffer conversion performed by
    `write` is an external encoding primitive; `write` here receives the
    already-converted byte chunk),
  * the stream object as a structure `BS` mirroring its fields; the extra
    field `pending` models the FIFO queue of callbacks this stream has
    registered with process.nextTick (Job.flushJob is the callback created by
    _flushOnNextTick, Job.endJob the one created by _emitEndDestroyNextTick),
  * emitted events (`emit("data", c)`, "drain", "pause", "resume", "end") as
    an explicit trace of `Event`s returned by each operation.  When an
    encoding is set the source emits chunk.toString(encoding); decoding is an
    external primitive, so the trace records the underlying chunk either way,
  * thrown errors (`throw new Error(...)`) as `Except.error`; the two message
    strings are represented by the constructors of `Err`
    (Err.notWritable = "Stream is not writable",
     Err.alreadyEnded = "Stream is already ended"),
  * the event loop as a step relation: `Op.tick` pops and runs the oldest
    pending callback; the other `Op`s are the public API calls.  This follows
    the single-threaded execution model: each API call or scheduled callback
    runs atomically.
-/

/-- A chunk of data: an immutable byte sequence (node Buffer). -/
abbrev Chunk : Type := List Nat

/-- A callback sitting in the process.nextTick queue, created by this stream:
`flushJob` is the `tick` closure of `_flushOnNextTick`, `endJob` the `tick`
closure of `_emitEndDestroyNextTick`. -/
inductive Job : Type where
  | flushJob : Job
  | endJob : Job
deriving DecidableEq, Repr

/-- Observable events emitted by the stream. -/
inductive Event : Type where
  | data : Chunk → Event
  | drain : Event
  | pauseEv : Event
  | resumeEv : Event
  | endEv : Event
deriving DecidableEq, Repr

/-- Errors thrown by the stream:
`notWritable` is `new Error("Stream is not writable")`,
`alreadyEnded` is `new Error("Stream is already ended")`. -/
inductive Err : Type where
  | notWritable : Err
  | alreadyEnded : Err
deriving DecidableEq, Repr

/-- The state of a BufferedStream object, mirroring the fields set in the
constructor, plus `pending`: the FIFO of nextTick callbacks this stream has
scheduled (part of the process state in node, included here so that the
whole system is one value). -/
structure BS : Type where
  size : Int
  encoding : Option String
  readable : Bool
  writable : Bool
  ended : Bool
  maxSize : Int
  _buffer : List Chunk
  _wait : Bool
  _flushing : Bool
  _wasFull : Bool
  pending : List Job
deriving DecidableEq, Repr

/-- The constructor `new BufferedStream(maxSize)` with no source argument.
When `maxSize` is omitted in the source it defaults to -1 (buffer
indefinitely); callers of this model pass -1 for that case. -/
def init (maxSize : Int) : BS :=
  { size := 0
    encoding := none
    readable := true
    writable := true
    ended := false
    maxSize := maxSize
    _buffer := []
    _wait := false
    _flushing := false
    _wasFull := false
    pending := [] }

/-- Getter `empty`: `this._buffer.length == 0`. -/
def BS.empty (s : BS) : Bool := s._buffer.length == 0

/-- Getter `full`: `this.maxSize >= 0 && this.maxSize < this.size`. -/
def BS.full (s : BS) : Bool := decide (0 ≤ s.maxSize) && decide (s.maxSize < s.size)

/-- `process.nextTick(cb)`: append a callback to the pending queue. -/
def schedule (s : BS) (j : Job) : BS := { s with pending := s.pending ++ [j] }

/-- `setEncoding(encoding)`. -/
def setEncoding (s : BS) (e : String) : BS := { s with encoding := some e }

/-- `pause()`: set `_wait` and emit "pause". -/
def pause (s : BS) : BS × List Event := ({ s with _wait := true }, [Event.pauseEv])

/-- `resume()`: clear `_wait`, emit "resume", schedule a flush tick if the
buffer is non-empty and an end tick if the stream has ended. -/
def resume (s : BS) : BS × List Event :=
  let s1 : BS := { s with _wait := false }
  let s2 : BS := if s1.empty = false then schedule s1 Job.flushJob else s1
  let s3 : BS := if s2.ended = true then schedule s2 Job.endJob else s2
  (s3, [Event.resumeEv])

/-- The state mutations of a successful `write(chunk)` before the return
value is computed: push the chunk, add its length to `size`, and if no flush
chain is active, schedule one and set `_flushing`. -/
def writeState (s : BS) (c : Chunk) : BS :=
  let s1 : BS := { s with _buffer := s._buffer ++ [c], size := s.size + (c.length : Int) }
  if s1._flushing = false then { schedule s1 Job.flushJob with _flushing := true } else s1

/-- `write(chunk)`: throw if not writable or ended; apply `writeState`;
finally return `false` (setting `_wasFull`) if the stream is now full, else
`true`. -/
def write (s : BS) (c : Chunk) : Except Err (BS × Bool) :=
  if s.writable = false ∨ s.ended = true then Except.error Err.notWritable
  else if (writeState s c).full = true then Except.ok ({ writeState s c with _wasFull := true }, false)
  else Except.ok (writeState s c, true)

/-- The `while` loop of `flush()`, recursing structurally on the buffer;
the argument list is always the current `_buffer` of the state.  While not
`_wait`, readable, and the buffer is non-empty, shift a chunk, subtract its
length from `size`, and emit it. -/
def flushLoopGo (s : BS) : List Chunk → BS × List Event
  | [] => (s, [])
  | c :: rest =>
    if s._wait = false ∧ s.readable = true then
      let p := flushLoopGo { s with _buffer := rest, size := s.size - (c.length : Int) } rest
      (p.1, Event.data c :: p.2)
    else (s, [])

/-- The `while` loop of `flush()` on the current buffer. -/
def flushLoop (s : BS) : BS × List Event := flushLoopGo s s._buffer

/-- `flush()`: run the drain loop, then if `_wasFull && !full` clear
`_wasFull` and emit "drain". -/
def flush (s : BS) : BS × List Event :=
  let p := flushLoop s
  if p.1._wasFull = true ∧ p.1.full = false then
    ({ p.1 with _wasFull := false }, p.2 ++ [Event.drain])
  else p

/-- `destroy()`: clear the buffer and make the stream neither readable nor
writable.  Nothing else changes (in particular `size` is not reset). -/
def destroy (s : BS) : BS := { s with _buffer := [], readable := false, writable := false }

/-- `end(chunk?)`: throw if already ended; write the chunk if one was given
(propagating any error from `write` before `ended` is set); set `ended` and
schedule an end tick. -/
def endStream (s : BS) (oc : Option Chunk) : Except Err BS :=
  if s.ended = true then Except.error Err.alreadyEnded
  else
    match oc with
    | some c =>
      match write s c with
      | Except.error e => Except.error e
      | Except.ok (s1, _) => Except.ok (schedule { s1 with ended := true } Job.endJob)
    | none => Except.ok (schedule { s with ended := true } Job.endJob)

/-- The body of the `tick` closure in `_flushOnNextTick`: flush; if the
buffer is empty, clear `_flushing`; else if paused, go dormant; else
reschedule itself. -/
def runFlushJob (s : BS) : BS × List Event :=
  let p := flush s
  if p.1.empty = true then ({ p.1 with _flushing := false }, p.2)
  else if p.1._wait = true then p
  else (schedule p.1 Job.flushJob, p.2)

/-- The body of the `tick` closure in `_emitEndDestroyNextTick`: if the
buffer is empty, destroy and emit "end"; else if paused, go dormant; else
reschedule itself. -/
def runEndJob (s : BS) : BS × List Event :=
  if s.empty = true then (destroy s, [Event.endEv])
  else if s._wait = true then (s, [])
  else (schedule s Job.endJob, [])

/-- One atomic unit of execution: an API call on the stream, or `tick`,
which runs the oldest pending nextTick callback (if any). -/
inductive Op : Type where
  | writeOp : Chunk → Op
  | endCall : Option Chunk → Op
  | pauseOp : Op
  | resumeOp : Op
  | flushOp : Op
  | destroyOp : Op
  | tick : Op
deriving DecidableEq, Repr

/-- Execute one operation.  A thrown error propagates to the caller and
leaves the stream unchanged (both `write` and `end` throw before mutating
anything), so the erroring cases return the state untouched. -/
def step (s : BS) : Op → BS × List Event
  | Op.writeOp c =>
    match write s c with
    | Except.ok p => (p.1, [])
    | Except.error _ => (s, [])
  | Op.endCall oc =>
    match endStream s oc with
    | Except.ok s1 => (s1, [])
    | Except.error _ => (s, [])
  | Op.pauseOp => pause s
  | Op.resumeOp => resume s
  | Op.flushOp => flush s
  | Op.destroyOp => (destroy s, [])
  | Op.tick =>
    match s.pending with
    | [] => (s, [])
    | Job.flushJob :: rest => runFlushJob { s with pending := rest }
    | Job.endJob :: rest => runEndJob { s with pending := rest }

/-- Execute a sequence of operations, concatenating the emitted traces. -/
def run (s : BS) : List Op → BS × List Event
  | [] => (s, [])
  | op :: ops =>
    let p := step s op
    let q := run p.1 ops
    (q.1, p.2 ++ q.2)

/-- The chunks carried by the data events of a trace, in order. -/
def dataChunks : List Event → List Chunk
  | [] => []
  | Event.data c :: es => c :: dataChunks es
  | Event.drain :: es => dataChunks es
  | Event.pauseEv :: es => dataChunks es
  | Event.resumeEv :: es => dataChunks es
  | Event.endEv :: es => dataChunks es

/-- Total byte length of a list of chunks. -/
def sumLen (l : List Chunk) : Nat := (l.map List.length).sum

/-- The chunk accepted (enqueued) by one operation, if any: a `write` that
does not throw enqueues its chunk, and an `end` with a payload on a
non-ended, writable stream enqueues the payload via `write`. -/
def acceptedStep (s : BS) : Op → List Chunk
  | Op.writeOp c => if s.writable = true ∧ s.ended = false then [c] else []
  | Op.endCall (some c) => if s.writable = true ∧ s.ended = false then [c] else []
  | Op.endCall none => []
  | Op.pauseOp => []
  | Op.resumeOp => []
  | Op.flushOp => []
  | Op.destroyOp => []
  | Op.tick => []

/-- All chunks accepted over a sequence of operations, in order. -/
def accepted (s : BS) : List Op → List Chunk
  | [] => []
  | op :: ops => acceptedStep s op ++ accepted (step s op).1 ops

/-- Whether an operation is a `resume()` call. -/
def isResume : Op → Bool
  | Op.resumeOp => true
  | _ => false

/-- `true` when no `resume()` call occurs after an `end()` call in the
operation list. -/
def noResumeAfterEnd : List Op → Bool
  | [] => true
  | Op.endCall _ :: rest => rest.all (fun op => !(isResume op))
  | _ :: rest => noResumeAfterEnd rest

/-- Upper bound on pending end emissions justified by the state: one once
`ended` is set, none before. -/
def endBudget (s : BS) : Nat := if s.ended = true then 1 else 0

example : (run (init (-1)) [Op.writeOp [1, 2], Op.endCall none, Op.tick, Op.tick]).2
    = [Event.data [1, 2], Event.endEv] := by decide

lemma endBudget_le_one (s : BS) : endBudget s ≤ 1 := by
  rw [endBudget]
  split
  · exact le_refl 1
  · exact Nat.zero_le 1

@[simp]
lemma dataChunks_append (a b : List Event) :
    dataChunks (a ++ b) = dataChunks a ++ dataChunks b := by
  induction a with
  | nil => rfl
  | cons e es ih => cases e <;> simp [dataChunks, ih]

@[simp]
lemma dataChunks_map_data (l : List Chunk) :
    dataChunks (l.map Event.data) = l := by
  induction l with
  | nil => rfl
  | cons c cs ih => simp [dataChunks, ih]

@[simp]
lemma count_drain_map_data (l : List Chunk) :
    (l.map Event.data).count Event.drain = 0 := by
  induction l with
  | nil => rfl
  | cons c cs ih => simp [List.count_cons, ih]

@[simp]
lemma count_endEv_map_data (l : List Chunk) :
    (l.map Event.data).count Event.endEv = 0 := by
  induction l with
  | nil => rfl
  | cons c cs ih => simp [List.count_cons, ih]

@[simp]
lemma sumLen_nil : sumLen [] = 0 := rfl

@[simp]
lemma sumLen_cons (c : Chunk) (l : List Chunk) :
    sumLen (c :: l) = c.length + sumLen l := by
  simp [sumLen]

@[simp]
lemma sumLen_append (a b : List Chunk) :
    sumLen (a ++ b) = sumLen a + sumLen b := by
  simp [sumLen]

/-- Closed form of the flush loop: when the stream is neither paused nor
unreadable it drains the whole buffer (emitting each chunk in order),
otherwise it does nothing. -/
lemma flushLoopGo_eq : ∀ (l : List Chunk) (s : BS), s._buffer = l →
    flushLoopGo s l =
      if s._wait = false ∧ s.readable = true then
        ({ s with _buffer := [], size := s.size - (sumLen l : Int) }, l.map Event.data)
      else (s, []) := by
  intro l
  induction l with
  | nil =>
    intro s hb
    simp only [flushLoopGo]
    split
    · cases s
      simp_all [sumLen]
    · rfl
  | cons c rest ih =>
    intro s hb
    simp only [flushLoopGo]
    split
    · rw [ih { s with _buffer := rest, size := s.size - (c.length : Int) } rfl]
      simp_all only [List.map_cons, sumLen_cons]
      split
      · simp only [Prod.mk.injEq, BS.mk.injEq, and_true, true_and]
        omega
      · simp_all
    · rfl

lemma flushLoop_eq (s : BS) :
    flushLoop s =
      if s._wait = false ∧ s.readable = true then
        ({ s with _buffer := [], size := s.size - (sumLen s._buffer : Int) }, s._buffer.map Event.data)
      else (s, []) :=
  flushLoopGo_eq s._buffer s rfl

@[simp]
lemma full_set_wasFull (s : BS) (b : Bool) : BS.full { s with _wasFull := b } = s.full := rfl

@[simp]
lemma full_schedule (s : BS) (j : Job) : BS.full (schedule s j) = s.full := rfl

@[simp]
lemma empty_eq_true_iff (s : BS) : s.empty = true ↔ s._buffer = [] := by
  simp [BS.empty, List.length_eq_zero]

@[simp]
lemma empty_eq_false_iff (s : BS) : s.empty = false ↔ s._buffer ≠ [] := by
  rw [← Bool.not_eq_true, not_iff_not]
  exact empty_eq_true_iff s

@[simp]
lemma writeState_buffer (s : BS) (c : Chunk) :
    (writeState s c)._buffer = s._buffer ++ [c] := by
  by_cases hf : s._flushing = false <;> simp [writeState, schedule, hf]

@[simp]
lemma writeState_size (s : BS) (c : Chunk) :
    (writeState s c).size = s.size + (c.length : Int) := by
  by_cases hf : s._flushing = false <;> simp [writeState, schedule, hf]

@[simp]
lemma writeState_wait (s : BS) (c : Chunk) : (writeState s c)._wait = s._wait := by
  by_cases hf : s._flushing = false <;> simp [writeState, schedule, hf]

@[simp]
lemma writeState_readable (s : BS) (c : Chunk) : (writeState s c).readable = s.readable := by
  by_cases hf : s._flushing = false <;> simp [writeState, schedule, hf]

@[simp]
lemma writeState_writable (s : BS) (c : Chunk) : (writeState s c).writable = s.writable := by
  by_cases hf : s._flushing = false <;> simp [writeState, schedule, hf]

@[simp]
lemma writeState_ended (s : BS) (c : Chunk) : (writeState s c).ended = s.ended := by
  by_cases hf : s._flushing = false <;> simp [writeState, schedule, hf]

@[simp]
lemma writeState_maxSize (s : BS) (c : Chunk) : (writeState s c).maxSize = s.maxSize := by
  by_cases hf : s._flushing = false <;> simp [writeState, schedule, hf]

@[simp]
lemma writeState_wasFull (s : BS) (c : Chunk) : (writeState s c)._wasFull = s._wasFull := by
  by_cases hf : s._flushing = false <;> simp [writeState, schedule, hf]

@[simp]
lemma writeState_encoding (s : BS) (c : Chunk) : (writeState s c).encoding = s.encoding := by
  by_cases hf : s._flushing = false <;> simp [writeState, schedule, hf]

lemma writeState_pending (s : BS) (c : Chunk) :
    (writeState s c).pending =
      if s._flushing = false then s.pending ++ [Job.flushJob] else s.pending := by
  by_cases hf : s._flushing = false <;> simp [writeState, schedule, hf]

@[simp]
lemma writeState_pending_count_endJob (s : BS) (c : Chunk) :
    (writeState s c).pending.count Job.endJob = s.pending.count Job.endJob := by
  rw [writeState_pending]
  by_cases hf : s._flushing = false <;> simp [hf, List.count_append]

@[simp]
lemma flush_wait (s : BS) : (flush s).1._wait = s._wait := by
  rw [flush, flushLoop_eq]
  split
  · split <;> simp
  · split <;> simp

@[simp]
lemma flush_readable (s : BS) : (flush s).1.readable = s.readable := by
  rw [flush, flushLoop_eq]
  split
  · split <;> simp
  · split <;> simp

@[simp]
lemma flush_writable (s : BS) : (flush s).1.writable = s.writable := by
  rw [flush, flushLoop_eq]
  split
  · split <;> simp
  · split <;> simp

@[simp]
lemma flush_ended (s : BS) : (flush s).1.ended = s.ended := by
  rw [flush, flushLoop_eq]
  split
  · split <;> simp
  · split <;> simp

@[simp]
lemma flush_maxSize (s : BS) : (flush s).1.maxSize = s.maxSize := by
  rw [flush, flushLoop_eq]
  split
  · split <;> simp
  · split <;> simp

@[simp]
lemma flush_flushing (s : BS) : (flush s).1._flushing = s._flushing := by
  rw [flush, flushLoop_eq]
  split
  · split <;> simp
  · split <;> simp

@[simp]
lemma flush_pending (s : BS) : (flush s).1.pending = s.pending := by
  rw [flush, flushLoop_eq]
  split
  · split <;> simp
  · split <;> simp

@[simp]
lemma flush_encoding (s : BS) : (flush s).1.encoding = s.encoding := by
  rw [flush, flushLoop_eq]
  split
  · split <;> simp
  · split <;> simp

/-- The data/buffer bookkeeping of one `flush`: what comes out in data events
followed by what remains in the buffer is exactly what was in the buffer. -/
lemma flush_data_buffer (s : BS) :
    dataChunks (flush s).2 ++ (flush s).1._buffer = s._buffer := by
  rw [flush, flushLoop_eq]
  split
  · split <;> simp [dataChunks]
  · split <;> simp [dataChunks]

/-- `flush` preserves the byte-accounting invariant. -/
lemma flush_size (s : BS) (h : s.size = (sumLen s._buffer : Int)) :
    (flush s).1.size = (sumLen (flush s).1._buffer : Int) := by
  rw [flush, flushLoop_eq]
  split
  · split <;> simp [h]
  · split <;> simp [h]

/-- A single `flush` emits at most one "drain". -/
lemma flush_count_drain (s : BS) : (flush s).2.count Event.drain ≤ 1 := by
  rw [flush, flushLoop_eq]
  split
  · split <;> simp [List.count_append, List.count_cons]
  · split <;> simp [List.count_append, List.count_cons]

@[simp]
lemma flushLoop_wasFull (s : BS) : (flushLoop s).1._wasFull = s._wasFull := by
  rw [flushLoop_eq]
  split <;> rfl

@[simp]
lemma flushLoop_no_drain (s : BS) : Event.drain ∉ (flushLoop s).2 := by
  rw [flushLoop_eq]
  split <;> simp

/-- "drain" is only emitted out of a state with `_wasFull` set, and at a
moment where the stream is no longer full. -/
lemma flush_drain_mem (s : BS) (h : Event.drain ∈ (flush s).2) :
    s._wasFull = true ∧ (flush s).1.full = false := by
  by_cases hcond : (flushLoop s).1._wasFull = true ∧ (flushLoop s).1.full = false
  · rw [flush, if_pos hcond]
    refine ⟨?_, ?_⟩
    · rw [← flushLoop_wasFull s]
      exact hcond.1
    · simpa using hcond.2
  · rw [flush, if_neg hcond] at h
    exact absurd h (flushLoop_no_drain s)

/-- If the stream stops being full across a `flush` whose starting state had
`_wasFull` set, exactly one "drain" is emitted. -/
lemma flush_full_transition (s : BS) (hw : s._wasFull = true)
    (hf : (flush s).1.full = false) : (flush s).2.count Event.drain = 1 := by
  by_cases hcond : (flushLoop s).1._wasFull = true ∧ (flushLoop s).1.full = false
  · rw [flush, if_pos hcond]
    have := flushLoop_no_drain s
    simp [List.count_append, List.count_cons, List.count_eq_zero.mpr this]
  · exfalso
    rw [flush, if_neg hcond] at hf
    rw [flushLoop_wasFull] at hcond
    simp only [hw, true_and] at hcond
    simp_all

/-- After a `flush`, `_wasFull` implies `full`: either the drain check
cleared `_wasFull`, or the stream was still full. -/
lemma flush_wasFull_full (s : BS) (h : (flush s).1._wasFull = true) :
    (flush s).1.full = true := by
  by_cases hcond : (flushLoop s).1._wasFull = true ∧ (flushLoop s).1.full = false
  · rw [flush, if_pos hcond] at h
    simp at h
  · rw [flush, if_neg hcond] at h ⊢
    simp only [not_and] at hcond
    have := hcond h
    simp_all

@[simp]
lemma flush_count_endEv (s : BS) : (flush s).2.count Event.endEv = 0 := by
  rw [flush, flushLoop_eq]
  split
  · split <;> simp [List.count_append, List.count_cons]
  · split <;> simp [List.count_append, List.count_cons]

lemma flush_no_endEv (s : BS) : Event.endEv ∉ (flush s).2 := by
  have := flush_count_endEv s
  intro hmem
  rw [← List.count_pos_iff] at hmem
  omega

/-- The flush loop can only lower the size. -/
lemma flush_size_le (s : BS) : (flush s).1.size ≤ s.size := by
  rw [flush, flushLoop_eq]
  split
  · split
    · simp
    · simp
  · split
    · simp
    · simp

/-- Since `flush` can only lower the size, it never turns a non-full stream
into a full one. -/
lemma flush_full_le (s : BS) (h : (flush s).1.full = true) : s.full = true := by
  have hle : (flush s).1.size ≤ s.size := flush_size_le s
  have hm : (flush s).1.maxSize = s.maxSize := flush_maxSize s
  simp only [BS.full, Bool.and_eq_true, decide_eq_true_eq] at h ⊢
  omega

@[simp]
lemma destroy_size (s : BS) : (destroy s).size = s.size := rfl

@[simp]
lemma destroy_buffer (s : BS) : (destroy s)._buffer = [] := rfl

@[simp]
lemma destroy_ended (s : BS) : (destroy s).ended = s.ended := rfl

@[simp]
lemma destroy_wait (s : BS) : (destroy s)._wait = s._wait := rfl

@[simp]
lemma destroy_wasFull (s : BS) : (destroy s)._wasFull = s._wasFull := rfl

@[simp]
lemma destroy_full (s : BS) : (destroy s).full = s.full := rfl

@[simp]
lemma destroy_pending (s : BS) : (destroy s).pending = s.pending := rfl

@[simp]
lemma runFlushJob_events (s : BS) : (runFlushJob s).2 = (flush s).2 := by
  rw [runFlushJob]
  split
  · rfl
  · split <;> rfl

@[simp]
lemma runFlushJob_buffer (s : BS) : (runFlushJob s).1._buffer = (flush s).1._buffer := by
  rw [runFlushJob]
  split
  · rfl
  · split
    · rfl
    · simp [schedule]

@[simp]
lemma runFlushJob_size (s : BS) : (runFlushJob s).1.size = (flush s).1.size := by
  rw [runFlushJob]
  split
  · rfl
  · split
    · rfl
    · simp [schedule]

@[simp]
lemma runFlushJob_wait (s : BS) : (runFlushJob s).1._wait = s._wait := by
  rw [runFlushJob]
  split
  · simp
  · split
    · simp
    · simp [schedule]

@[simp]
lemma runFlushJob_readable (s : BS) : (runFlushJob s).1.readable = s.readable := by
  rw [runFlushJob]
  split
  · simp
  · split
    · simp
    · simp [schedule]

@[simp]
lemma runFlushJob_writable (s : BS) : (runFlushJob s).1.writable = s.writable := by
  rw [runFlushJob]
  split
  · simp
  · split
    · simp
    · simp [schedule]

@[simp]
lemma runFlushJob_ended (s : BS) : (runFlushJob s).1.ended = s.ended := by
  rw [runFlushJob]
  split
  · simp
  · split
    · simp
    · simp [schedule]

@[simp]
lemma runFlushJob_maxSize (s : BS) : (runFlushJob s).1.maxSize = s.maxSize := by
  rw [runFlushJob]
  split
  · simp
  · split
    · simp
    · simp [schedule]

@[simp]
lemma runFlushJob_wasFull (s : BS) : (runFlushJob s).1._wasFull = (flush s).1._wasFull := by
  rw [runFlushJob]
  split
  · rfl
  · split
    · rfl
    · simp [schedule]

@[simp]
lemma runFlushJob_full (s : BS) : (runFlushJob s).1.full = (flush s).1.full := by
  rw [runFlushJob]
  split
  · rfl
  · split
    · rfl
    · simp [schedule, BS.full]

lemma runFlushJob_pending (s : BS) :
    (runFlushJob s).1.pending = s.pending
      ∨ (runFlushJob s).1.pending = s.pending ++ [Job.flushJob] := by
  rw [runFlushJob]
  split
  · left
    simp
  · split
    · left
      simp
    · right
      simp [schedule]

@[simp]
lemma runFlushJob_pending_count_endJob (s : BS) :
    (runFlushJob s).1.pending.count Job.endJob = s.pending.count Job.endJob := by
  rcases runFlushJob_pending s with h | h <;> rw [h] <;> simp [List.count_append]

/-- Unfolding lemma: running no operations. -/
@[simp]
lemma run_nil (s : BS) : run s [] = (s, []) := rfl

/-- Unfolding lemma: running one operation then the rest. -/
lemma run_cons (s : BS) (op : Op) (ops : List Op) :
    run s (op :: ops) =
      ((run (step s op).1 ops).1, (step s op).2 ++ (run (step s op).1 ops).2) := rfl

/-- A state predicate preserved by every step holds after any run. -/
lemma run_preserve (P : BS → Prop) (hstep : ∀ t op, P t → P (step t op).1) :
    ∀ (ops : List Op) (t : BS), P t → P (run t ops).1 := by
  intro ops
  induction ops with
  | nil => intro t ht; simpa using ht
  | cons op ops ih =>
    intro t ht
    rw [run_cons]
    exact ih _ (hstep t op ht)

/-- `full` is monotone: growing the size of a full stream keeps it full. -/
lemma full_mono (s t : BS) (hm : t.maxSize = s.maxSize) (hs : s.size ≤ t.size)
    (h : s.full = true) : t.full = true := by
  simp only [BS.full, Bool.and_eq_true, decide_eq_true_eq] at h ⊢
  omega

@[simp]
lemma flushLoop_maxSize (s : BS) : (flushLoop s).1.maxSize = s.maxSize := by
  rw [flushLoop_eq]
  split <;> rfl

lemma flushLoop_size_le (s : BS) : (flushLoop s).1.size ≤ s.size := by
  rw [flushLoop_eq]
  split
  · simp
  · simp

lemma flushLoop_full_le (s : BS) (h : (flushLoop s).1.full = true) : s.full = true := by
  have hle : (flushLoop s).1.size ≤ s.size := flushLoop_size_le s
  have hm : (flushLoop s).1.maxSize = s.maxSize := flushLoop_maxSize s
  simp only [BS.full, Bool.and_eq_true, decide_eq_true_eq] at h ⊢
  omega

/-- A `flush` keeps the `_wasFull = full` invariant. -/
lemma flush_preserves_wasFull_eq_full (s : BS) (h : s._wasFull = s.full) :
    (flush s).1._wasFull = (flush s).1.full := by
  by_cases hcond : (flushLoop s).1._wasFull = true ∧ (flushLoop s).1.full = false
  · rw [flush, if_pos hcond]
    simpa [BS.full] using hcond.2
  · rw [flush, if_neg hcond]
    simp only [not_and] at hcond
    rcases Bool.eq_false_or_eq_true s._wasFull with hswf | hswf
    · have hne := hcond (by rw [flushLoop_wasFull]; exact hswf)
      rw [flushLoop_wasFull, hswf]
      rcases Bool.eq_false_or_eq_true (flushLoop s).1.full with hl | hl
      · rw [hl]
      · exact absurd hl hne
    · have hsf : s.full = false := by rw [← h]; exact hswf
      have hlf : (flushLoop s).1.full = false := by
        rcases Bool.eq_false_or_eq_true (flushLoop s).1.full with hl | hl
        · rw [flushLoop_full_le s hl] at hsf
          exact absurd hsf (by simp)
        · exact hl
      rw [flushLoop_wasFull, hswf, hlf]

@[simp]
lemma resume_events (s : BS) : (resume s).2 = [Event.resumeEv] := rfl

@[simp]
lemma resume_buffer (s : BS) : (resume s).1._buffer = s._buffer := by
  rw [resume]
  split
  · split <;> simp [schedule]
  · split <;> simp [schedule]

@[simp]
lemma resume_size (s : BS) : (resume s).1.size = s.size := by
  rw [resume]
  split
  · split <;> simp [schedule]
  · split <;> simp [schedule]

@[simp]
lemma resume_full (s : BS) : (resume s).1.full = s.full := by
  rw [resume]
  split
  · split <;> simp [schedule, BS.full]
  · split <;> simp [schedule, BS.full]

@[simp]
lemma resume_wasFull (s : BS) : (resume s).1._wasFull = s._wasFull := by
  rw [resume]
  split
  · split <;> simp [schedule]
  · split <;> simp [schedule]

@[simp]
lemma resume_ended (s : BS) : (resume s).1.ended = s.ended := by
  rw [resume]
  split
  · split <;> simp [schedule]
  · split <;> simp [schedule]

@[simp]
lemma resume_wait (s : BS) : (resume s).1._wait = false := by
  rw [resume]
  split
  · split <;> simp [schedule]
  · split <;> simp [schedule]

lemma resume_pending_of_not_ended (s : BS) (h : s.ended = false) :
    (resume s).1.pending = s.pending
      ∨ (resume s).1.pending = s.pending ++ [Job.flushJob] := by
  rw [resume]
  simp only [schedule, h]
  split
  · split
    · simp_all [schedule]
    · simp_all [schedule]
  · split
    · simp_all [schedule]
    · simp_all [schedule]

lemma step_writeOp_err (s : BS) (c : Chunk) (hg : s.writable = false ∨ s.ended = true) :
    step s (Op.writeOp c) = (s, []) := by
  simp [step, write, hg]

lemma step_writeOp_ok (s : BS) (c : Chunk) (hw : s.writable = true) (he : s.ended = false) :
    step s (Op.writeOp c) =
      (if (writeState s c).full = true then { writeState s c with _wasFull := true }
       else writeState s c, []) := by
  simp only [step, write, hw, he]
  rw [if_neg (by simp)]
  by_cases hf : (writeState s c).full = true
  · simp only [if_pos hf]
  · simp only [if_neg hf]

lemma step_endCall_err_ended (s : BS) (oc : Option Chunk) (he : s.ended = true) :
    step s (Op.endCall oc) = (s, []) := by
  cases oc <;> simp [step, endStream, he]

lemma step_endCall_none_ok (s : BS) (he : s.ended = false) :
    step s (Op.endCall none) = (schedule { s with ended := true } Job.endJob, []) := by
  simp [step, endStream, he]

lemma step_endCall_some_err (s : BS) (c : Chunk) (he : s.ended = false)
    (hw : s.writable = false) : step s (Op.endCall (some c)) = (s, []) := by
  simp [step, endStream, he, write, hw]

lemma step_endCall_some_ok (s : BS) (c : Chunk) (he : s.ended = false)
    (hw : s.writable = true) :
    step s (Op.endCall (some c)) =
      (schedule { (if (writeState s c).full = true then { writeState s c with _wasFull := true }
                   else writeState s c) with ended := true } Job.endJob, []) := by
  simp only [step, endStream, he, write, hw]
  rw [if_neg (by simp), if_neg (by simp)]
  by_cases hf : (writeState s c).full = true
  · simp only [if_pos hf]
  · simp only [if_neg hf]

lemma step_tick_nil (s : BS) (hp : s.pending = []) : step s Op.tick = (s, []) := by
  simp [step, hp]

lemma step_tick_flushJob (s : BS) (rest : List Job) (hp : s.pending = Job.flushJob :: rest) :
    step s Op.tick = runFlushJob { s with pending := rest } := by
  simp [step, hp]

lemma step_tick_endJob (s : BS) (rest : List Job) (hp : s.pending = Job.endJob :: rest) :
    step s Op.tick = runEndJob { s with pending := rest } := by
  simp [step, hp]

/-- One step never loses, duplicates or reorders buffered data: the data
events it emits followed by what remains buffered equal the old buffer plus
any chunk the operation accepted (`destroy`, which discards the buffer, is
excluded). -/
lemma step_buffer (s : BS) (op : Op) (hop : op ≠ Op.destroyOp) :
    dataChunks (step s op).2 ++ (step s op).1._buffer = s._buffer ++ acceptedStep s op := by
  cases op with
  | writeOp c =>
    cases hw : s.writable with
    | false => simp [step, write, hw, acceptedStep, dataChunks]
    | true =>
      cases he : s.ended with
      | true => simp [step, write, hw, he, acceptedStep, dataChunks]
      | false =>
        by_cases hf : (writeState s c).full = true
        · simp [step, write, hw, he, hf, acceptedStep, dataChunks]
        · simp [step, write, hw, he, hf, acceptedStep, dataChunks]
  | endCall oc =>
    cases oc with
    | none =>
      by_cases he : s.ended = true
      · simp [step, endStream, he, acceptedStep, dataChunks]
      · simp [step, endStream, he, acceptedStep, dataChunks, schedule]
    | some c =>
      cases he : s.ended with
      | true => simp [step, endStream, he, acceptedStep, dataChunks]
      | false =>
        cases hw : s.writable with
        | false => simp [step, endStream, write, hw, he, acceptedStep, dataChunks]
        | true =>
          by_cases hf : (writeState s c).full = true
          · simp [step, endStream, write, hw, he, hf, acceptedStep, dataChunks, schedule]
          · simp [step, endStream, write, hw, he, hf, acceptedStep, dataChunks, schedule]
  | pauseOp => simp [step, pause, acceptedStep, dataChunks]
  | resumeOp => simp [step, acceptedStep, dataChunks]
  | flushOp =>
    have := flush_data_buffer s
    simpa [step, acceptedStep] using this
  | destroyOp => exact absurd rfl hop
  | tick =>
    cases hp : s.pending with
    | nil => simp [step, hp, acceptedStep, dataChunks]
    | cons j rest =>
      cases j with
      | flushJob =>
        have := flush_data_buffer { s with pending := rest }
        simp only [step, hp, acceptedStep]
        simpa [runFlushJob_events, runFlushJob_buffer] using this
      | endJob =>
        simp only [step, hp, acceptedStep]
        by_cases hemp : BS.empty { s with pending := rest } = true
        · have hb : s._buffer = [] := by simpa using hemp
          rw [runEndJob, if_pos hemp]
          simp [dataChunks, hb]
        · rw [runEndJob, if_neg hemp]
          split
          · simp [dataChunks]
          · simp [schedule, dataChunks]

/-- One step keeps the byte-accounting invariant (`destroy` excluded). -/
lemma step_size (s : BS) (op : Op) (hop : op ≠ Op.destroyOp)
    (h : s.size = (sumLen s._buffer : Int)) :
    (step s op).1.size = (sumLen (step s op).1._buffer : Int) := by
  cases op with
  | writeOp c =>
    cases hw : s.writable with
    | false => simp [step, write, hw, h]
    | true =>
      cases he : s.ended with
      | true => simp [step, write, hw, he, h]
      | false =>
        by_cases hf : (writeState s c).full = true
        · simp [step, write, hw, he, hf, h]
        · simp [step, write, hw, he, hf, h]
  | endCall oc =>
    cases oc with
    | none =>
      by_cases he : s.ended = true
      · simp [step, endStream, he, h]
      · simp [step, endStream, he, h, schedule]
    | some c =>
      cases he : s.ended with
      | true => simp [step, endStream, he, h]
      | false =>
        cases hw : s.writable with
        | false => simp [step, endStream, write, hw, he, h]
        | true =>
          by_cases hf : (writeState s c).full = true
          · simp [step, endStream, write, hw, he, hf, h, schedule]
          · simp [step, endStream, write, hw, he, hf, h, schedule]
  | pauseOp => simp [step, pause, h]
  | resumeOp => simp [step, h]
  | flushOp => simpa [step] using flush_size s h
  | destroyOp => exact absurd rfl hop
  | tick =>
    cases hp : s.pending with
    | nil => simp [step, hp, h]
    | cons j rest =>
      cases j with
      | flushJob =>
        have := flush_size { s with pending := rest } (by simpa using h)
        simp only [step, hp]
        simpa [runFlushJob_size, runFlushJob_buffer] using this
      | endJob =>
        simp only [step, hp]
        by_cases hemp : BS.empty { s with pending := rest } = true
        · have hb : s._buffer = [] := by simpa using hemp
          rw [runEndJob, if_pos hemp]
          simp only [destroy_size, destroy_buffer]
          rw [h, hb]
        · rw [runEndJob, if_neg hemp]
          split
          · simpa using h
          · simpa [schedule] using h

lemma writeState_endJob_mem (s : BS) (c : Chunk)
    (h : Job.endJob ∈ (writeState s c).pending) : Job.endJob ∈ s.pending := by
  rw [writeState_pending] at h
  by_cases hf : s._flushing = false
  · rw [if_pos hf] at h
    rcases List.mem_append.mp h with h1 | h1
    · exact h1
    · simp at h1
  · rwa [if_neg hf] at h

lemma runFlushJob_endJob_mem (s : BS)
    (h : Job.endJob ∈ (runFlushJob s).1.pending) : Job.endJob ∈ s.pending := by
  rcases runFlushJob_pending s with hp | hp
  · rwa [hp] at h
  · rw [hp] at h
    rcases List.mem_append.mp h with h1 | h1
    · exact h1
    · simp at h1

/-- One step keeps the invariant that an end job is pending only once the
stream has ended. -/
lemma step_endJob (s : BS) (op : Op) (h : Job.endJob ∈ s.pending → s.ended = true)
    (hmem : Job.endJob ∈ (step s op).1.pending) : (step s op).1.ended = true := by
  cases op with
  | writeOp c =>
    cases hw : s.writable with
    | false =>
      rw [step_writeOp_err s c (Or.inl hw)] at hmem ⊢
      exact h hmem
    | true =>
      cases he : s.ended with
      | true =>
        rw [step_writeOp_err s c (Or.inr he)] at hmem ⊢
        exact h hmem
      | false =>
        rw [step_writeOp_ok s c hw he] at hmem ⊢
        by_cases hf : (writeState s c).full = true
        · rw [if_pos hf] at hmem ⊢
          have := h (writeState_endJob_mem s c (by simpa using hmem))
          rw [he] at this
          cases this
        · rw [if_neg hf] at hmem ⊢
          have := h (writeState_endJob_mem s c hmem)
          rw [he] at this
          cases this
  | endCall oc =>
    cases oc with
    | none =>
      cases he : s.ended with
      | true =>
        rw [step_endCall_err_ended s none he] at hmem ⊢
        exact h hmem
      | false =>
        rw [step_endCall_none_ok s he]
        simp [schedule]
    | some c =>
      cases he : s.ended with
      | true =>
        rw [step_endCall_err_ended s (some c) he] at hmem ⊢
        exact h hmem
      | false =>
        cases hw : s.writable with
        | false =>
          rw [step_endCall_some_err s c he hw] at hmem ⊢
          exact h hmem
        | true =>
          rw [step_endCall_some_ok s c he hw]
          simp [schedule]
  | pauseOp =>
    simp only [step, pause] at hmem ⊢
    exact h hmem
  | resumeOp =>
    simp only [step] at hmem ⊢
    cases he : s.ended with
    | true => rw [resume_ended, he]
    | false =>
      rcases resume_pending_of_not_ended s he with hp | hp
      · rw [hp] at hmem
        have := h hmem
        rw [he] at this
        cases this
      · rw [hp] at hmem
        rcases List.mem_append.mp hmem with h1 | h1
        · have := h h1
          rw [he] at this
          cases this
        · simp at h1
  | flushOp =>
    simp only [step] at hmem ⊢
    rw [flush_pending] at hmem
    rw [flush_ended]
    exact h hmem
  | destroyOp =>
    simp only [step, destroy_pending, destroy_ended] at hmem ⊢
    exact h hmem
  | tick =>
    cases hp : s.pending with
    | nil =>
      rw [step_tick_nil s hp] at hmem ⊢
      exact h hmem
    | cons j rest =>
      cases j with
      | flushJob =>
        rw [step_tick_flushJob s rest hp] at hmem ⊢
        rw [runFlushJob_ended]
        have h1 := runFlushJob_endJob_mem _ hmem
        have h2 : Job.endJob ∈ s.pending := by
          rw [hp]
          exact List.mem_cons_of_mem _ h1
        exact h h2
      | endJob =>
        have hend : s.ended = true := h (by rw [hp]; exact List.mem_cons_self _ _)
        rw [step_tick_endJob s rest hp]
        rw [runEndJob]
        by_cases hemp : BS.empty { s with pending := rest } = true
        · rw [if_pos hemp]
          simpa using hend
        · rw [if_neg hemp]
          split
          · simpa using hend
          · simpa [schedule] using hend

/-- "end" is only emitted by a step that pops an end job from the front of
the pending queue while the buffer is empty. -/
lemma step_endEv (s : BS) (op : Op) (hmem : Event.endEv ∈ (step s op).2) :
    s._buffer = [] ∧ s.pending.head? = some Job.endJob := by
  cases op with
  | writeOp c =>
    rcases Bool.eq_false_or_eq_true s.writable with hw | hw
    · cases he : s.ended with
      | true =>
        rw [step_writeOp_err s c (Or.inr he)] at hmem
        simp at hmem
      | false =>
        rw [step_writeOp_ok s c hw he] at hmem
        by_cases hf : (writeState s c).full = true
        · rw [if_pos hf] at hmem
          simp at hmem
        · rw [if_neg hf] at hmem
          simp at hmem
    · rw [step_writeOp_err s c (Or.inl hw)] at hmem
      simp at hmem
  | endCall oc =>
    cases oc with
    | none =>
      cases he : s.ended with
      | true =>
        rw [step_endCall_err_ended s none he] at hmem
        simp at hmem
      | false =>
        rw [step_endCall_none_ok s he] at hmem
        simp at hmem
    | some c =>
      cases he : s.ended with
      | true =>
        rw [step_endCall_err_ended s (some c) he] at hmem
        simp at hmem
      | false =>
        cases hw : s.writable with
        | false =>
          rw [step_endCall_some_err s c he hw] at hmem
          simp at hmem
        | true =>
          rw [step_endCall_some_ok s c he hw] at hmem
          simp at hmem
  | pauseOp => simp [step, pause] at hmem
  | resumeOp => simp [step] at hmem
  | flushOp =>
    simp only [step] at hmem
    exact absurd hmem (flush_no_endEv s)
  | destroyOp => simp [step] at hmem
  | tick =>
    cases hp : s.pending with
    | nil =>
      rw [step_tick_nil s hp] at hmem
      simp at hmem
    | cons j rest =>
      cases j with
      | flushJob =>
        rw [step_tick_flushJob s rest hp] at hmem
        rw [runFlushJob_events] at hmem
        exact absurd hmem (flush_no_endEv _)
      | endJob =>
        rw [step_tick_endJob s rest hp] at hmem
        rw [runEndJob] at hmem
        by_cases hemp : BS.empty { s with pending := rest } = true
        · exact ⟨by simpa using hemp, rfl⟩
        · rw [if_neg hemp] at hmem
          split at hmem
          · simp at hmem
          · simp at hmem

/-- One step emits at most one "drain". -/
lemma step_count_drain (s : BS) (op : Op) : (step s op).2.count Event.drain ≤ 1 := by
  cases op with
  | writeOp c =>
    rcases Bool.eq_false_or_eq_true s.writable with hw | hw
    · cases he : s.ended with
      | true =>
        rw [step_writeOp_err s c (Or.inr he)]
        simp
      | false =>
        rw [step_writeOp_ok s c hw he]
        simp
    · rw [step_writeOp_err s c (Or.inl hw)]
      simp
  | endCall oc =>
    cases oc with
    | none =>
      cases he : s.ended with
      | true =>
        rw [step_endCall_err_ended s none he]
        simp
      | false =>
        rw [step_endCall_none_ok s he]
        simp
    | some c =>
      cases he : s.ended with
      | true =>
        rw [step_endCall_err_ended s (some c) he]
        simp
      | false =>
        cases hw : s.writable with
        | false =>
          rw [step_endCall_some_err s c he hw]
          simp
        | true =>
          rw [step_endCall_some_ok s c he hw]
          simp
  | pauseOp => simp [step, pause, List.count_cons]
  | resumeOp => simp [step, List.count_cons]
  | flushOp => simpa [step] using flush_count_drain s
  | destroyOp => simp [step]
  | tick =>
    cases hp : s.pending with
    | nil =>
      rw [step_tick_nil s hp]
      simp
    | cons j rest =>
      cases j with
      | flushJob =>
        rw [step_tick_flushJob s rest hp, runFlushJob_events]
        exact flush_count_drain _
      | endJob =>
        rw [step_tick_endJob s rest hp, runEndJob]
        by_cases hemp : BS.empty { s with pending := rest } = true
        · rw [if_pos hemp]
          simp [List.count_cons]
        · rw [if_neg hemp]
          split
          · simp
          · simp

/-- Any step that emits "drain" starts from a full state with the sticky
flag set, and ends in a non-full state. -/
lemma step_drain_mem (s : BS) (op : Op) (hinv : s._wasFull = s.full)
    (hd : Event.drain ∈ (step s op).2) :
    s._wasFull = true ∧ s.full = true ∧ (step s op).1.full = false := by
  cases op with
  | writeOp c =>
    rcases Bool.eq_false_or_eq_true s.writable with hw | hw
    · cases he : s.ended with
      | true =>
        rw [step_writeOp_err s c (Or.inr he)] at hd
        simp at hd
      | false =>
        rw [step_writeOp_ok s c hw he] at hd
        by_cases hf : (writeState s c).full = true
        · rw [if_pos hf] at hd
          simp at hd
        · rw [if_neg hf] at hd
          simp at hd
    · rw [step_writeOp_err s c (Or.inl hw)] at hd
      simp at hd
  | endCall oc =>
    cases oc with
    | none =>
      cases he : s.ended with
      | true =>
        rw [step_endCall_err_ended s none he] at hd
        simp at hd
      | false =>
        rw [step_endCall_none_ok s he] at hd
        simp at hd
    | some c =>
      cases he : s.ended with
      | true =>
        rw [step_endCall_err_ended s (some c) he] at hd
        simp at hd
      | false =>
        cases hw : s.writable with
        | false =>
          rw [step_endCall_some_err s c he hw] at hd
          simp at hd
        | true =>
          rw [step_endCall_some_ok s c he hw] at hd
          simp at hd
  | pauseOp => simp [step, pause] at hd
  | resumeOp => simp [step] at hd
  | flushOp =>
    simp only [step] at hd ⊢
    have h1 := flush_drain_mem s hd
    exact ⟨h1.1, by rw [← hinv]; exact h1.1, h1.2⟩
  | destroyOp => simp [step] at hd
  | tick =>
    cases hp : s.pending with
    | nil =>
      rw [step_tick_nil s hp] at hd
      simp at hd
    | cons j rest =>
      cases j with
      | flushJob =>
        rw [step_tick_flushJob s rest hp] at hd ⊢
        rw [runFlushJob_events] at hd
        have h1 := flush_drain_mem { s with pending := rest } hd
        refine ⟨h1.1, by rw [← hinv]; exact h1.1, ?_⟩
        rw [runFlushJob_full]
        exact h1.2
      | endJob =>
        rw [step_tick_endJob s rest hp] at hd
        rw [runEndJob] at hd
        by_cases hemp : BS.empty { s with pending := rest } = true
        · rw [if_pos hemp] at hd
          simp at hd
        · rw [if_neg hemp] at hd
          split at hd
          · simp at hd
          · simp at hd

/-- Any step across which the stream goes from full to non-full emits
exactly one "drain" (given the sticky-flag invariant). -/
lemma step_full_trans (s : BS) (op : Op) (hinv : s._wasFull = s.full)
    (h1 : s.full = true) (h2 : (step s op).1.full = false) :
    (step s op).2.count Event.drain = 1 := by
  cases op with
  | writeOp c =>
    rcases Bool.eq_false_or_eq_true s.writable with hw | hw
    · cases he : s.ended with
      | true =>
        rw [step_writeOp_err s c (Or.inr he)] at h2
        rw [h1] at h2
        cases h2
      | false =>
        have hwsf : (writeState s c).full = true := by
          refine full_mono s (writeState s c) (writeState_maxSize s c) ?_ h1
          rw [writeState_size]
          omega
        rw [step_writeOp_ok s c hw he] at h2
        rw [if_pos hwsf] at h2
        rw [full_set_wasFull, hwsf] at h2
        cases h2
    · rw [step_writeOp_err s c (Or.inl hw)] at h2
      rw [h1] at h2
      cases h2
  | endCall oc =>
    cases oc with
    | none =>
      cases he : s.ended with
      | true =>
        rw [step_endCall_err_ended s none he] at h2
        rw [h1] at h2
        cases h2
      | false =>
        rw [step_endCall_none_ok s he] at h2
        simp only [full_schedule] at h2
        rw [show BS.full { s with ended := true } = s.full from rfl, h1] at h2
        cases h2
    | some c =>
      cases he : s.ended with
      | true =>
        rw [step_endCall_err_ended s (some c) he] at h2
        rw [h1] at h2
        cases h2
      | false =>
        cases hw : s.writable with
        | false =>
          rw [step_endCall_some_err s c he hw] at h2
          rw [h1] at h2
          cases h2
        | true =>
          have hwsf : (writeState s c).full = true := by
            refine full_mono s (writeState s c) (writeState_maxSize s c) ?_ h1
            rw [writeState_size]
            omega
          rw [step_endCall_some_ok s c he hw] at h2
          rw [if_pos hwsf] at h2
          simp only [full_schedule] at h2
          have h3 : (writeState s c).full = false := by
            simpa [BS.full] using h2
          rw [hwsf] at h3
          cases h3
  | pauseOp =>
    simp only [step, pause] at h2
    rw [show BS.full { s with _wait := true } = s.full from rfl, h1] at h2
    cases h2
  | resumeOp =>
    simp only [step, resume_full] at h2
    rw [h1] at h2
    cases h2
  | flushOp =>
    simp only [step] at h2 ⊢
    exact flush_full_transition s (by rw [hinv]; exact h1) h2
  | destroyOp =>
    simp only [step, destroy_full] at h2
    rw [h1] at h2
    cases h2
  | tick =>
    cases hp : s.pending with
    | nil =>
      rw [step_tick_nil s hp] at h2
      rw [h1] at h2
      cases h2
    | cons j rest =>
      cases j with
      | flushJob =>
        rw [step_tick_flushJob s rest hp] at h2 ⊢
        rw [runFlushJob_full] at h2
        rw [runFlushJob_events]
        exact flush_full_transition { s with pending := rest } (by rw [hinv]; exact h1) h2
      | endJob =>
        rw [step_tick_endJob s rest hp] at h2
        rw [runEndJob] at h2
        by_cases hemp : BS.empty { s with pending := rest } = true
        · rw [if_pos hemp] at h2
          simp only [destroy_full] at h2
          rw [show BS.full { s with pending := rest } = s.full from rfl, h1] at h2
          cases h2
        · rw [if_neg hemp] at h2
          split at h2
          · rw [show BS.full { s with pending := rest } = s.full from rfl, h1] at h2
            cases h2
          · simp only [full_schedule] at h2
            rw [show BS.full { s with pending := rest } = s.full from rfl, h1] at h2
            cases h2

/-- While paused, a tick consumes the oldest pending job, schedules nothing
new, and stays paused. -/
lemma step_tick_paused (s : BS) (h : s._wait = true) :
    (step s Op.tick).1.pending = s.pending.drop 1
    ∧ (step s Op.tick).1._wait = true := by
  cases hp : s.pending with
  | nil =>
    rw [step_tick_nil s hp]
    simp [hp, h]
  | cons j rest =>
    cases j with
    | flushJob =>
      rw [step_tick_flushJob s rest hp]
      have hw : (flush { s with pending := rest }).1._wait = true := by
        rw [flush_wait]
        exact h
      rw [runFlushJob]
      split
      · simp [h]
      · simp [hw, h]
    | endJob =>
      rw [step_tick_endJob s rest hp]
      rw [runEndJob]
      split
      · simp [destroy, h]
      · simp [h]

/-- With nothing pending, ticks are complete no-ops. -/
lemma run_ticks_pending_nil (s : BS) (hp : s.pending = []) :
    ∀ (n : Nat), run s (List.replicate n Op.tick) = (s, []) := by
  intro n
  induction n with
  | zero => rfl
  | succ n ih =>
    rw [List.replicate_succ, run_cons, step_tick_nil s hp]
    simpa using ih

/-- A paused stream runs down its pending queue and then goes quiescent:
ticks beyond the pending queue's length change nothing and emit nothing. -/
lemma run_ticks_paused (s : BS) (h : s._wait = true) (k : Nat) :
    run s (List.replicate (s.pending.length + k) Op.tick)
      = run s (List.replicate s.pending.length Op.tick) := by
  obtain ⟨l, hl⟩ : ∃ l, s.pending = l := ⟨s.pending, rfl⟩
  induction l generalizing s k with
  | nil =>
    rw [hl]
    simp only [List.length_nil, Nat.zero_add]
    rw [run_ticks_pending_nil s hl k, run_ticks_pending_nil s hl 0]
  | cons j rest ih =>
    rw [hl]
    simp only [List.length_cons]
    rw [show rest.length + 1 + k = (rest.length + k) + 1 from by omega]
    rw [List.replicate_succ, List.replicate_succ, run_cons, run_cons]
    obtain ⟨hpend, hwait⟩ := step_tick_paused s h
    rw [hl] at hpend
    simp only [List.drop_one, List.tail_cons] at hpend
    have := ih (step s Op.tick).1 hwait k hpend
    rw [hpend] at this
    rw [this]

lemma flush_buffer_empty (s : BS) (hb : s._buffer = []) : (flush s).1._buffer = [] := by
  have h := flush_data_buffer s
  rw [hb] at h
  exact (List.append_eq_nil.mp h).2

/-- Once `ended` is set and the buffer is empty, running the whole pending
queue (all flush jobs followed by the one end job) emits "end" and leaves
the stream neither readable nor writable. -/
lemma run_ticks_end (fs : List Job) : ∀ (s : BS), (∀ j ∈ fs, j = Job.flushJob) →
    s.pending = fs ++ [Job.endJob] → s._buffer = [] →
    Event.endEv ∈ (run s (List.replicate s.pending.length Op.tick)).2
    ∧ (run s (List.replicate s.pending.length Op.tick)).1.readable = false
    ∧ (run s (List.replicate s.pending.length Op.tick)).1.writable = false := by
  induction fs with
  | nil =>
    intro s _ hp hb
    rw [hp]
    simp only [List.nil_append, List.length_cons, List.length_nil]
    rw [List.replicate_succ, run_cons, step_tick_endJob s [] hp]
    rw [runEndJob, if_pos (by simpa using hb)]
    rw [run_ticks_pending_nil _ (by simp [destroy]) 0]
    simp [destroy]
  | cons f fs' ih =>
    intro s hall hp hb
    have hf : f = Job.flushJob := hall f (List.mem_cons_self f fs')
    rw [hf] at hp
    rw [hp]
    simp only [List.cons_append, List.length_cons]
    rw [List.replicate_succ, run_cons, step_tick_flushJob s (fs' ++ [Job.endJob]) hp]
    have hb1 : (flush { s with pending := fs' ++ [Job.endJob] }).1._buffer = [] :=
      flush_buffer_empty _ (by simpa using hb)
    rw [runFlushJob, if_pos (by simpa using hb1)]
    have hp1 : ({ (flush { s with pending := fs' ++ [Job.endJob] }).1 with
        _flushing := false } : BS).pending = fs' ++ [Job.endJob] := by
      simp
    have := ih ({ (flush { s with pending := fs' ++ [Job.endJob] }).1 with _flushing := false })
      (fun j hj => hall j (List.mem_cons_of_mem f hj)) hp1 (by simpa using hb1)
    rw [hp1] at this
    simp only [List.length_append, List.length_cons, List.length_nil] at this
    rw [show (fs' ++ [Job.endJob]).length = fs'.length + 1 from by simp]
    refine ⟨?_, this.2.1, this.2.2⟩
    rw [List.mem_append]
    right
    exact this.1

lemma endBudget_congr (s t : BS) (h : t.ended = s.ended) : endBudget t = endBudget s := by
  simp [endBudget, h]

/-- Per-step accounting of end emissions against the pending end jobs and
the one-shot budget granted when `ended` is set: emitting "end" consumes a
pending end job, and a new end job is only minted by `end()` itself (once)
or by a `resume()` on an ended stream (excluded here). -/
lemma step_end_count (s : BS) (op : Op) (hres : op = Op.resumeOp → s.ended = false) :
    (step s op).2.count Event.endEv + (step s op).1.pending.count Job.endJob
      + endBudget s
      ≤ s.pending.count Job.endJob + endBudget (step s op).1 := by
  cases op with
  | writeOp c =>
    rcases Bool.eq_false_or_eq_true s.writable with hw | hw
    · cases he : s.ended with
      | true =>
        rw [step_writeOp_err s c (Or.inr he)]
        simp
      | false =>
        rw [step_writeOp_ok s c hw he]
        by_cases hf : (writeState s c).full = true
        · rw [if_pos hf]
          rw [endBudget_congr s ({ writeState s c with _wasFull := true } : BS) (by simp)]
          rw [show ({ writeState s c with _wasFull := true } : BS).pending.count Job.endJob
              = s.pending.count Job.endJob from by simp]
          simp
        · rw [if_neg hf]
          rw [endBudget_congr s (writeState s c) (writeState_ended s c)]
          rw [writeState_pending_count_endJob]
          simp
    · rw [step_writeOp_err s c (Or.inl hw)]
      simp
  | endCall oc =>
    cases oc with
    | none =>
      cases he : s.ended with
      | true =>
        rw [step_endCall_err_ended s none he]
        simp
      | false =>
        rw [step_endCall_none_ok s he]
        simp [schedule, List.count_append, List.count_cons, endBudget, he]
    | some c =>
      cases he : s.ended with
      | true =>
        rw [step_endCall_err_ended s (some c) he]
        simp
      | false =>
        cases hw : s.writable with
        | false =>
          rw [step_endCall_some_err s c he hw]
          simp
        | true =>
          rw [step_endCall_some_ok s c he hw]
          by_cases hf : (writeState s c).full = true
          · rw [if_pos hf]
            simp [schedule, List.count_append, List.count_cons, endBudget, he]
          · rw [if_neg hf]
            simp [schedule, List.count_append, List.count_cons, endBudget, he]
  | pauseOp => simp [step, pause, List.count_cons, endBudget]
  | resumeOp =>
    have he : s.ended = false := hres rfl
    rw [endBudget_congr s (step s Op.resumeOp).1 (by simpa [step] using resume_ended s)]
    have hpc : (step s Op.resumeOp).1.pending.count Job.endJob
        = s.pending.count Job.endJob := by
      rcases resume_pending_of_not_ended s he with h1 | h1 <;>
        simp [step, h1, List.count_append]
    rw [hpc]
    simp [step, List.count_cons]
  | flushOp =>
    rw [endBudget_congr s (step s Op.flushOp).1 (by simpa [step] using flush_ended s)]
    simp [step]
  | destroyOp => simp [step, endBudget, destroy]
  | tick =>
    cases hp : s.pending with
    | nil =>
      rw [step_tick_nil s hp]
      simp [hp]
    | cons j rest =>
      cases j with
      | flushJob =>
        rw [step_tick_flushJob s rest hp]
        rw [endBudget_congr s (runFlushJob { s with pending := rest }).1
          (by simpa using runFlushJob_ended { s with pending := rest })]
        have hcnt := runFlushJob_pending_count_endJob { s with pending := rest }
        rw [runFlushJob_events, flush_count_endEv, hcnt]
        simp [List.count_cons]
      | endJob =>
        rw [step_tick_endJob s rest hp]
        rw [runEndJob]
        by_cases hemp : BS.empty { s with pending := rest } = true
        · rw [if_pos hemp]
          rw [endBudget_congr s (destroy { s with pending := rest }) (by simp)]
          simp only [destroy_pending]
          simp [destroy, List.count_cons]
          omega
        · rw [if_neg hemp]
          split
          · rw [endBudget_congr s ({ s with pending := rest } : BS) rfl]
            simp [List.count_cons]
          · rw [endBudget_congr s (schedule { s with pending := rest } Job.endJob)
              (by simp [schedule])]
            simp [schedule, List.count_append, List.count_cons]

/-- Ops without any resume trivially satisfy `noResumeAfterEnd`. -/
lemma noResumeAfterEnd_of_all (l : List Op) (h : ∀ op ∈ l, isResume op = false) :
    noResumeAfterEnd l = true := by
  induction l with
  | nil => rfl
  | cons op rest ih =>
    cases op with
    | endCall oc =>
      rw [noResumeAfterEnd]
      rw [List.all_eq_true]
      intro op' hmem
      have := h op' (List.mem_cons_of_mem _ hmem)
      simp [this]
    | writeOp c => exact ih (fun op' hm => h op' (List.mem_cons_of_mem _ hm))
    | pauseOp => exact ih (fun op' hm => h op' (List.mem_cons_of_mem _ hm))
    | resumeOp => exact ih (fun op' hm => h op' (List.mem_cons_of_mem _ hm))
    | flushOp => exact ih (fun op' hm => h op' (List.mem_cons_of_mem _ hm))
    | destroyOp => exact ih (fun op' hm => h op' (List.mem_cons_of_mem _ hm))
    | tick => exact ih (fun op' hm => h op' (List.mem_cons_of_mem _ hm))

lemma noResumeAfterEnd_tail (op : Op) (rest : List Op)
    (h : noResumeAfterEnd (op :: rest) = true) : noResumeAfterEnd rest = true := by
  cases op with
  | endCall oc =>
    rw [noResumeAfterEnd] at h
    rw [List.all_eq_true] at h
    refine noResumeAfterEnd_of_all rest (fun op' hm => ?_)
    have := h op' hm
    simpa using this
  | writeOp c => exact h
  | pauseOp => exact h
  | resumeOp => exact h
  | flushOp => exact h
  | destroyOp => exact h
  | tick => exact h

/-- The only API call that sets `ended` is `end()`. -/
lemma step_ended_from (s : BS) (op : Op) (h : (step s op).1.ended = true) :
    s.ended = true ∨ ∃ oc, op = Op.endCall oc := by
  cases op with
  | writeOp c =>
    rcases Bool.eq_false_or_eq_true s.writable with hw | hw
    · cases he : s.ended with
      | true => exact Or.inl rfl
      | false =>
        rw [step_writeOp_ok s c hw he] at h
        by_cases hf : (writeState s c).full = true
        · rw [if_pos hf] at h
          have h2 : s.ended = true := by simpa using h
          rw [he] at h2
          exact Bool.noConfusion h2
        · rw [if_neg hf] at h
          have h2 : s.ended = true := by simpa using h
          rw [he] at h2
          exact Bool.noConfusion h2
    · rw [step_writeOp_err s c (Or.inl hw)] at h
      exact Or.inl h
  | endCall oc => exact Or.inr ⟨oc, rfl⟩
  | pauseOp =>
    simp only [step, pause] at h
    exact Or.inl h
  | resumeOp =>
    simp only [step, resume_ended] at h
    exact Or.inl h
  | flushOp =>
    simp only [step, flush_ended] at h
    exact Or.inl h
  | destroyOp =>
    simp only [step, destroy_ended] at h
    exact Or.inl h
  | tick =>
    cases hp : s.pending with
    | nil =>
      rw [step_tick_nil s hp] at h
      exact Or.inl h
    | cons j rest =>
      cases j with
      | flushJob =>
        rw [step_tick_flushJob s rest hp] at h
        rw [runFlushJob_ended] at h
        exact Or.inl h
      | endJob =>
        rw [step_tick_endJob s rest hp] at h
        rw [runEndJob] at h
        left
        by_cases hemp : BS.empty { s with pending := rest } = true
        · rw [if_pos hemp] at h
          simpa using h
        · rw [if_neg hemp] at h
          split at h
          · simpa using h
          · simpa [schedule] using h

/-- Telescoped end-emission accounting over a whole run: every "end" event
is paid for by a pending end job or the single budget minted by `end()`,
provided no `resume()` ever runs on an ended stream. -/
lemma c2_aux (ops : List Op) : ∀ (s : BS),
    noResumeAfterEnd ops = true →
    (s.ended = true → ∀ op ∈ ops, isResume op = false) →
    (run s ops).2.count Event.endEv + (run s ops).1.pending.count Job.endJob
      + endBudget s
      ≤ s.pending.count Job.endJob + endBudget (run s ops).1 := by
  induction ops with
  | nil =>
    intro s _ _
    simp
  | cons op rest ih =>
    intro s hnr hre
    have hres : op = Op.resumeOp → s.ended = false := by
      intro hop
      rcases Bool.eq_false_or_eq_true s.ended with he | he
      · have := hre he op (List.mem_cons_self _ _)
        rw [hop] at this
        simp [isResume] at this
      · exact he
    have hstep := step_end_count s op hres
    have hre' : (step s op).1.ended = true → ∀ op' ∈ rest, isResume op' = false := by
      intro hend op' hmem
      rcases step_ended_from s op hend with hse | ⟨oc, hoc⟩
      · exact hre hse op' (List.mem_cons_of_mem _ hmem)
      · rw [hoc] at hnr
        rw [noResumeAfterEnd] at hnr
        rw [List.all_eq_true] at hnr
        simpa using hnr op' hmem
    have := ih (step s op).1 (noResumeAfterEnd_tail op rest hnr) hre'
    rw [run_cons]
    simp only [List.count_append]
    omega

/-- The post-write state keeps the invariant `_wasFull = full`. -/
lemma writeResult_wasFull (s : BS) (c : Chunk) (h : s._wasFull = s.full) :
    (if (writeState s c).full = true then ({ writeState s c with _wasFull := true } : BS)
     else writeState s c)._wasFull =
    (if (writeState s c).full = true then ({ writeState s c with _wasFull := true } : BS)
     else writeState s c).full := by
  by_cases hf : (writeState s c).full = true
  · rw [if_pos hf, full_set_wasFull, hf]
  · rw [if_neg hf]
    rw [writeState_wasFull, h]
    rcases Bool.eq_false_or_eq_true s.full with hsf | hsf
    · have : (writeState s c).full = true := by
        refine full_mono s (writeState s c) (writeState_maxSize s c) ?_ hsf
        rw [writeState_size]
        omega
      exact absurd this hf
    · rw [hsf]
      rcases Bool.eq_false_or_eq_true (writeState s c).full with hwf2 | hwf2
      · exact absurd hwf2 hf
      · rw [hwf2]

/-- One step keeps the invariant `_wasFull = full` (the sticky flag is set
exactly while the stream is full). -/
lemma step_wasFull (s : BS) (op : Op) (h : s._wasFull = s.full) :
    (step s op).1._wasFull = (step s op).1.full := by
  cases op with
  | writeOp c =>
    cases hw : s.writable with
    | false =>
      rw [step_writeOp_err s c (Or.inl hw)]
      exact h
    | true =>
      cases he : s.ended with
      | true =>
        rw [step_writeOp_err s c (Or.inr he)]
        exact h
      | false =>
        rw [step_writeOp_ok s c hw he]
        exact writeResult_wasFull s c h
  | endCall oc =>
    cases oc with
    | none =>
      cases he : s.ended with
      | true =>
        rw [step_endCall_err_ended s none he]
        exact h
      | false =>
        rw [step_endCall_none_ok s he]
        simpa [schedule, BS.full] using h
    | some c =>
      cases he : s.ended with
      | true =>
        rw [step_endCall_err_ended s (some c) he]
        exact h
      | false =>
        cases hw : s.writable with
        | false =>
          rw [step_endCall_some_err s c he hw]
          exact h
        | true =>
          rw [step_endCall_some_ok s c he hw]
          have := writeResult_wasFull s c h
          by_cases hf : (writeState s c).full = true
          · rw [if_pos hf] at this ⊢
            simpa [schedule, BS.full] using this
          · rw [if_neg hf] at this ⊢
            simpa [schedule, BS.full] using this
  | pauseOp =>
    simpa [step, pause, BS.full] using h
  | resumeOp =>
    have : (resume s).1._wasFull = (resume s).1.full := by
      rw [resume_wasFull, resume_full]
      exact h
    simpa [step] using this
  | flushOp => simpa [step] using flush_preserves_wasFull_eq_full s h
  | destroyOp => simpa [step, destroy, BS.full] using h
  | tick =>
    cases hp : s.pending with
    | nil =>
      rw [step_tick_nil s hp]
      exact h
    | cons j rest =>
      cases j with
      | flushJob =>
        rw [step_tick_flushJob s rest hp]
        rw [runFlushJob_wasFull, runFlushJob_full]
        exact flush_preserves_wasFull_eq_full { s with pending := rest } (by simpa using h)
      | endJob =>
        rw [step_tick_endJob s rest hp]
        by_cases hemp : BS.empty { s with pending := rest } = true
        · rw [runEndJob, if_pos hemp]
          simpa [destroy, BS.full] using h
        · rw [runEndJob, if_neg hemp]
          split
          · simpa using h
          · simpa [schedule, BS.full] using h

/-- Data bookkeeping over a whole run (without direct `destroy` calls):
emitted data followed by the remaining buffer equals the initial buffer
followed by all accepted chunks, in order. -/
lemma run_data_buffer (ops : List Op) : ∀ (s : BS), Op.destroyOp ∉ ops →
    dataChunks (run s ops).2 ++ (run s ops).1._buffer = s._buffer ++ accepted s ops := by
  induction ops with
  | nil =>
    intro s _
    simp [accepted, dataChunks]
  | cons op rest ih =>
    intro s hnd
    have hop : op ≠ Op.destroyOp := fun hh => hnd (hh ▸ List.mem_cons_self _ _)
    have hnd' : Op.destroyOp ∉ rest := fun hh => hnd (List.mem_cons_of_mem _ hh)
    have h1 := step_buffer s op hop
    have h2 := ih (step s op).1 hnd'
    rw [run_cons, accepted]
    simp only [dataChunks_append]
    calc dataChunks (step s op).2 ++ dataChunks (run (step s op).1 rest).2
          ++ (run (step s op).1 rest).1._buffer
        = dataChunks (step s op).2 ++ (dataChunks (run (step s op).1 rest).2
          ++ (run (step s op).1 rest).1._buffer) := by rw [List.append_assoc]
      _ = dataChunks (step s op).2
          ++ ((step s op).1._buffer ++ accepted (step s op).1 rest) := by rw [h2]
      _ = dataChunks (step s op).2 ++ (step s op).1._buffer
          ++ accepted (step s op).1 rest := by rw [List.append_assoc]
      _ = s._buffer ++ acceptedStep s op ++ accepted (step s op).1 rest := by rw [h1]
      _ = s._buffer ++ (acceptedStep s op ++ accepted (step s op).1 rest) := by
          rw [List.append_assoc]

/-- Byte accounting over a whole run (without direct `destroy` calls). -/
lemma run_size (ops : List Op) : ∀ (s : BS), Op.destroyOp ∉ ops →
    s.size = (sumLen s._buffer : Int) →
    (run s ops).1.size = (sumLen (run s ops).1._buffer : Int) := by
  induction ops with
  | nil =>
    intro s _ h
    simpa using h
  | cons op rest ih =>
    intro s hnd h
    have hop : op ≠ Op.destroyOp := fun hh => hnd (hh ▸ List.mem_cons_self _ _)
    have hnd' : Op.destroyOp ∉ rest := fun hh => hnd (List.mem_cons_of_mem _ hh)
    rw [run_cons]
    exact ih (step s op).1 hnd' (step_size s op hop h)

/-- The `_wasFull = full` invariant holds in every reachable state. -/
lemma run_wasFull (m : Int) (ops : List Op) :
    (run (init m) ops).1._wasFull = (run (init m) ops).1.full := by
  refine run_preserve (fun t => t._wasFull = t.full) step_wasFull ops (init m) ?_
  simp only [init, BS.full]
  rw [eq_comm, Bool.and_eq_false_iff]
  rcases Int.lt_or_le m 0 with hm | hm
  · left
    simpa using hm
  · right
    simpa using hm

/-- In every reachable state, a pending end job implies `ended`. -/
lemma run_endJob (m : Int) (ops : List Op)
    (h : Job.endJob ∈ (run (init m) ops).1.pending) :
    (run (init m) ops).1.ended = true := by
  refine run_preserve (fun t => Job.endJob ∈ t.pending → t.ended = true)
    (fun t op ht hm => step_endJob t op ht hm) ops (init m) ?_ h
  intro hmem
  simp [init] at hmem

/-- C1. Order preservation: over any operation sequence (writes, end,
pause, resume, flush, ticks — no direct destroy), the data chunks emitted,
followed by what is still buffered, are exactly the accepted chunks in
write order: nothing is dropped, duplicated or reordered; in particular
once the buffer has drained the emitted data equals the written data. -/
theorem c1_order_preservation (m : Int) (ops : List Op) (hnd : Op.destroyOp ∉ ops) :
    dataChunks (run (init m) ops).2 ++ (run (init m) ops).1._buffer
      = accepted (init m) ops
    ∧ ((run (init m) ops).1._buffer = [] →
        dataChunks (run (init m) ops).2 = accepted (init m) ops) := by
  have h := run_data_buffer ops (init m) hnd
  rw [show (init m)._buffer = [] from rfl, List.nil_append] at h
  refine ⟨h, fun hb => ?_⟩
  rw [hb, List.append_nil] at h
  exact h

theorem c1_witness :
    Op.destroyOp ∉ ([Op.writeOp [1], Op.writeOp [2, 3], Op.endCall none,
        Op.tick, Op.tick] : List Op)
    ∧ dataChunks (run (init (-1)) [Op.writeOp [1], Op.writeOp [2, 3],
          Op.endCall none, Op.tick, Op.tick]).2
        ++ (run (init (-1)) [Op.writeOp [1], Op.writeOp [2, 3],
          Op.endCall none, Op.tick, Op.tick]).1._buffer
      = accepted (init (-1)) [Op.writeOp [1], Op.writeOp [2, 3],
          Op.endCall none, Op.tick, Op.tick] :=
  ⟨by decide, (c1_order_preservation (-1) [Op.writeOp [1], Op.writeOp [2, 3],
      Op.endCall none, Op.tick, Op.tick] (by decide)).1⟩

/-- C2, counterexample. Calling `end()` and then `resume()` makes the
stream emit "end" twice: `end` schedules one end tick and `resume` on the
(already ended) stream schedules a second one, and each of them finds the
queue empty and emits "end". This refutes "the end signal is emitted at
most once ... including resume() being called after end()". -/
theorem c2_counterexample :
    ((run (init (-1)) [Op.endCall none, Op.resumeOp, Op.tick, Op.tick]).2).count
        Event.endEv = 2 := by decide

/-- C2, amended. The "end" signal is emitted only at a step that pops an
end job while the queue is empty and `ended` is set; and provided `resume()`
is never called after `end()`, it is emitted at most once over the whole
run. -/
theorem c2_end_once (m : Int) (ops : List Op) (h : noResumeAfterEnd ops = true) :
    (run (init m) ops).2.count Event.endEv ≤ 1
    ∧ (∀ (ops1 : List Op) (op : Op),
        Event.endEv ∈ (step (run (init m) ops1).1 op).2 →
        (run (init m) ops1).1._buffer = [] ∧ (run (init m) ops1).1.ended = true) := by
  constructor
  · have hb := c2_aux ops (init m) h (by intro hend; simp [init] at hend)
    have h0 : (init m).pending.count Job.endJob = 0 := by simp [init]
    have h1 : endBudget (init m) = 0 := by simp [endBudget, init]
    have h2 := endBudget_le_one (run (init m) ops).1
    omega
  · intro ops1 op hmem
    obtain ⟨hbuf, hhead⟩ := step_endEv (run (init m) ops1).1 op hmem
    refine ⟨hbuf, ?_⟩
    refine run_endJob m ops1 ?_
    cases hl : (run (init m) ops1).1.pending with
    | nil =>
      rw [hl] at hhead
      simp at hhead
    | cons hd tl =>
      rw [hl] at hhead
      simp only [List.head?_cons, Option.some.injEq] at hhead
      rw [hhead]
      exact List.mem_cons_self _ _

theorem c2_witness :
    noResumeAfterEnd [Op.resumeOp, Op.endCall (some [1]), Op.tick, Op.tick, Op.tick] = true
    ∧ (run (init (-1)) [Op.resumeOp, Op.endCall (some [1]), Op.tick, Op.tick,
        Op.tick]).2.count Event.endEv ≤ 1 :=
  ⟨by decide, (c2_end_once (-1) [Op.resumeOp, Op.endCall (some [1]), Op.tick,
      Op.tick, Op.tick] (by decide)).1⟩

/-- C3. Backpressure: on a writable, non-ended stream, `write` never
throws, always enqueues the chunk (adding its length to `size`), and its
return value is `false` exactly when the stream is full immediately after
enqueuing, where full means `maxSize ≥ 0` and `size > maxSize`. -/
theorem c3_backpressure (s : BS) (c : Chunk) (hw : s.writable = true)
    (he : s.ended = false) :
    write s c = Except.ok
      ((if (writeState s c).full = true then { writeState s c with _wasFull := true }
        else writeState s c), !(writeState s c).full)
    ∧ ((!(writeState s c).full) = false ↔ (writeState s c).full = true)
    ∧ ((writeState s c).full = true ↔ 0 ≤ s.maxSize ∧ s.maxSize < s.size + (c.length : Int))
    ∧ (writeState s c)._buffer = s._buffer ++ [c]
    ∧ (writeState s c).size = s.size + (c.length : Int) := by
  refine ⟨?_, by simp, ?_, writeState_buffer s c, writeState_size s c⟩
  · rw [write, if_neg (by simp [hw, he])]
    by_cases hf : (writeState s c).full = true
    · rw [if_pos hf, if_pos hf, hf]
      rfl
    · rw [if_neg hf, if_neg hf]
      have : (writeState s c).full = false := by
        rcases Bool.eq_false_or_eq_true (writeState s c).full with h1 | h1
        · exact absurd h1 hf
        · exact h1
      rw [this]
      rfl
  · rw [BS.full]
    rw [writeState_maxSize, writeState_size]
    simp

theorem c3_witness :
    (init 0).writable = true ∧ (init 0).ended = false
    ∧ write (init 0) [7] = Except.ok
        ((if (writeState (init 0) [7]).full = true
          then { writeState (init 0) [7] with _wasFull := true }
          else writeState (init 0) [7]), !(writeState (init 0) [7]).full) :=
  ⟨rfl, rfl, (c3_backpressure (init 0) [7] rfl rfl).1⟩

/-- C4. Single drain edge: from any reachable state, one step emits at most
one "drain"; a step that emits "drain" starts with the sticky flag set in a
state that is (still) full and ends non-full — so there is a prior full
state, namely the step's own start; and any step across which the stream
goes from full to non-full emits exactly one "drain". -/
theorem c4_single_drain_edge (m : Int) (ops1 : List Op) (op : Op) :
    (step (run (init m) ops1).1 op).2.count Event.drain ≤ 1
    ∧ (Event.drain ∈ (step (run (init m) ops1).1 op).2 →
        (run (init m) ops1).1._wasFull = true
        ∧ (run (init m) ops1).1.full = true
        ∧ (step (run (init m) ops1).1 op).1.full = false)
    ∧ ((run (init m) ops1).1.full = true →
        (step (run (init m) ops1).1 op).1.full = false →
        (step (run (init m) ops1).1 op).2.count Event.drain = 1) := by
  have hinv := run_wasFull m ops1
  exact ⟨step_count_drain _ op,
    fun hd => step_drain_mem _ op hinv hd,
    fun h1 h2 => step_full_trans _ op hinv h1 h2⟩

theorem c4_witness :
    Event.drain ∈ (step (run (init 0) [Op.writeOp [7]]).1 Op.tick).2
    ∧ ((run (init 0) [Op.writeOp [7]]).1._wasFull = true
       ∧ (run (init 0) [Op.writeOp [7]]).1.full = true
       ∧ (step (run (init 0) [Op.writeOp [7]]).1 Op.tick).1.full = false) :=
  ⟨by decide, (c4_single_drain_edge 0 [Op.writeOp [7]] Op.tick).2.1 (by decide)⟩

/-- C5. No busy loop when paused: on any paused stream, a tick only
consumes the oldest already-scheduled callback — it schedules nothing new
and the stream stays paused — and once the already-scheduled callbacks have
run, any further ticks change nothing and emit nothing (the run of n ticks
equals the run of just the pending ones, for every n). -/
theorem c5_no_busy_loop (s : BS) (h : s._wait = true) :
    (step s Op.tick).1.pending = s.pending.drop 1
    ∧ (step s Op.tick).1._wait = true
    ∧ ∀ (n : Nat), s.pending.length ≤ n →
        run s (List.replicate n Op.tick) = run s (List.replicate s.pending.length Op.tick) := by
  refine ⟨(step_tick_paused s h).1, (step_tick_paused s h).2, fun n hn => ?_⟩
  obtain ⟨k, hk⟩ : ∃ k, n = s.pending.length + k := ⟨n - s.pending.length, by omega⟩
  rw [hk]
  exact run_ticks_paused s h k

theorem c5_witness :
    (run (init (-1)) [Op.writeOp [1], Op.pauseOp]).1._wait = true
    ∧ (step (run (init (-1)) [Op.writeOp [1], Op.pauseOp]).1 Op.tick).1.pending
        = (run (init (-1)) [Op.writeOp [1], Op.pauseOp]).1.pending.drop 1
    ∧ run (run (init (-1)) [Op.writeOp [1], Op.pauseOp]).1 (List.replicate 5 Op.tick)
        = run (run (init (-1)) [Op.writeOp [1], Op.pauseOp]).1
            (List.replicate (run (init (-1)) [Op.writeOp [1], Op.pauseOp]).1.pending.length
              Op.tick) :=
  ⟨by decide,
   (c5_no_busy_loop (run (init (-1)) [Op.writeOp [1], Op.pauseOp]).1 (by decide)).1,
   (c5_no_busy_loop (run (init (-1)) [Op.writeOp [1], Op.pauseOp]).1 (by decide)).2.2 5
     (by decide)⟩

/-- C6. Termination after end: calling `end()` on an empty, unpaused,
not-yet-ended stream succeeds and schedules an end job; running the pending
queue to completion (bounded by its length: the stream's pending flush jobs
plus the one finalization step) emits "end" and leaves the stream neither
readable nor writable. -/
theorem c6_termination (s : BS) (hb : s._buffer = []) (hw : s._wait = false)
    (he : s.ended = false) (hp : Job.endJob ∉ s.pending) :
    endStream s none = Except.ok (schedule { s with ended := true } Job.endJob)
    ∧ Event.endEv ∈ (run (schedule { s with ended := true } Job.endJob)
        (List.replicate (s.pending.length + 1) Op.tick)).2
    ∧ (run (schedule { s with ended := true } Job.endJob)
        (List.replicate (s.pending.length + 1) Op.tick)).1.readable = false
    ∧ (run (schedule { s with ended := true } Job.endJob)
        (List.replicate (s.pending.length + 1) Op.tick)).1.writable = false := by
  have hall : ∀ j ∈ s.pending, j = Job.flushJob := by
    intro j hj
    cases j
    · rfl
    · exact absurd hj hp
  have hpend : (schedule { s with ended := true } Job.endJob).pending
      = s.pending ++ [Job.endJob] := by
    simp [schedule]
  have hlen : (schedule { s with ended := true } Job.endJob).pending.length
      = s.pending.length + 1 := by
    rw [hpend]
    simp
  have hmain := run_ticks_end s.pending (schedule { s with ended := true } Job.endJob)
    hall hpend (by simpa [schedule] using hb)
  rw [hlen] at hmain
  exact ⟨by rw [endStream, if_neg (by simp [he])], hmain.1, hmain.2.1, hmain.2.2⟩

theorem c6_witness :
    ((init (-1))._buffer = [] ∧ (init (-1))._wait = false ∧ (init (-1)).ended = false
      ∧ Job.endJob ∉ (init (-1)).pending)
    ∧ (endStream (init (-1)) none
        = Except.ok (schedule { init (-1) with ended := true } Job.endJob)
      ∧ Event.endEv ∈ (run (schedule { init (-1) with ended := true } Job.endJob)
          (List.replicate ((init (-1)).pending.length + 1) Op.tick)).2) :=
  ⟨⟨rfl, rfl, rfl, by decide⟩,
   (c6_termination (init (-1)) rfl rfl rfl (by decide)).1,
   (c6_termination (init (-1)) rfl rfl rfl (by decide)).2.1⟩

/-- C7, counterexample. `destroy()` on a stream with queued data clears the
queue but leaves `size` at 1, so `size` does not equal the (zero) sum of
the queued chunk lengths once `destroy` is among the operations. -/
theorem c7_counterexample :
    (run (init (-1)) [Op.writeOp [5], Op.destroyOp]).1._buffer = []
    ∧ ¬ ((run (init (-1)) [Op.writeOp [5], Op.destroyOp]).1.size
        = (sumLen (run (init (-1)) [Op.writeOp [5], Op.destroyOp]).1._buffer : Int)) := by
  constructor
  · decide
  · decide

/-- C7, amended. In every state reachable by write, flush, end, pause,
resume and scheduled steps — without direct `destroy()` calls — `size`
equals the sum of the lengths of the queued chunks (internal destruction at
end-of-stream only happens on an empty queue and preserves this); in
particular an empty queue means `size = 0`.  A direct `destroy()` with
queued data breaks the equation (see the counterexample): it empties the
queue but leaves `size` unchanged. -/
theorem c7_accounting (m : Int) (ops : List Op) (hnd : Op.destroyOp ∉ ops) :
    (run (init m) ops).1.size = (sumLen (run (init m) ops).1._buffer : Int)
    ∧ ((run (init m) ops).1._buffer = [] → (run (init m) ops).1.size = 0) := by
  have h := run_size ops (init m) hnd (by simp [init, sumLen])
  refine ⟨h, fun hb => ?_⟩
  rw [hb] at h
  simpa [sumLen] using h

theorem c7_witness :
    Op.destroyOp ∉ ([Op.writeOp [5], Op.writeOp [6, 7], Op.tick] : List Op)
    ∧ (run (init (-1)) [Op.writeOp [5], Op.writeOp [6, 7], Op.tick]).1.size
      = (sumLen (run (init (-1)) [Op.writeOp [5], Op.writeOp [6, 7], Op.tick]).1._buffer : Int) :=
  ⟨by decide,
   (c7_accounting (-1) [Op.writeOp [5], Op.writeOp [6, 7], Op.tick] (by decide)).1⟩

/-- C8, counterexample. `end(chunk)` on a destroyed — hence non-writable
but not ended — stream throws (from the inner `write`), so "end raises an
error exactly when the stream is already ended" is false. -/
theorem c8_counterexample :
    (destroy (init (-1))).ended = false
    ∧ endStream (destroy (init (-1))) (some []) = Except.error Err.notWritable :=
  ⟨rfl, rfl⟩

lemma endStream_err_ended (s : BS) (oc : Option Chunk) (he : s.ended = true) :
    endStream s oc = Except.error Err.alreadyEnded := by
  cases oc <;> simp [endStream, he]

lemma endStream_none_ok (s : BS) (he : s.ended = false) :
    endStream s none = Except.ok (schedule { s with ended := true } Job.endJob) := by
  simp [endStream, he]

lemma endStream_some_err (s : BS) (c : Chunk) (he : s.ended = false)
    (hw : s.writable = false) :
    endStream s (some c) = Except.error Err.notWritable := by
  simp [endStream, he, write, hw]

lemma endStream_some_ok (s : BS) (c : Chunk) (he : s.ended = false)
    (hw : s.writable = true) :
    endStream s (some c) =
      Except.ok (schedule { (if (writeState s c).full = true
          then { writeState s c with _wasFull := true } else writeState s c)
        with ended := true } Job.endJob) := by
  simp only [endStream, he, write, hw]
  rw [if_neg (by simp), if_neg (by simp)]
  by_cases hf : (writeState s c).full = true
  · simp only [if_pos hf]
  · simp only [if_neg hf]

/-- C8, amended. `write` throws exactly when the stream is not writable or
already ended, and a throwing `write` leaves the state (queue, size and all)
unchanged; `end` throws exactly when the stream is already ended or when it
is given a payload while the stream is not writable, and a throwing `end`
likewise leaves the state unchanged; there is no other failure. -/
theorem c8_illegal_state (s : BS) (c : Chunk) (oc : Option Chunk) :
    ((write s c).isOk = (s.writable && !s.ended))
    ∧ ((endStream s oc).isOk = (!s.ended && (oc.isNone || s.writable)))
    ∧ (s.writable = false ∨ s.ended = true → step s (Op.writeOp c) = (s, []))
    ∧ (s.ended = true → step s (Op.endCall oc) = (s, []))
    ∧ (s.ended = false → s.writable = false → step s (Op.endCall (some c)) = (s, [])) := by
  refine ⟨?_, ?_, ?_, ?_, ?_⟩
  · rcases Bool.eq_false_or_eq_true s.writable with hw | hw
    · cases he : s.ended with
      | true =>
        rw [write, if_pos (Or.inr he), hw]
        rfl
      | false =>
        rw [write, if_neg (by simp [hw, he]), hw]
        by_cases hf : (writeState s c).full = true
        · rw [if_pos hf]
          rfl
        · rw [if_neg hf]
          rfl
    · rw [write, if_pos (Or.inl hw), hw]
      rfl
  · cases oc with
    | none =>
      cases he : s.ended with
      | true =>
        rw [endStream_err_ended s none he]
        rfl
      | false =>
        rw [endStream_none_ok s he]
        rfl
    | some c1 =>
      cases he : s.ended with
      | true =>
        rw [endStream_err_ended s (some c1) he]
        rfl
      | false =>
        rcases Bool.eq_false_or_eq_true s.writable with hw | hw
        · rw [endStream_some_ok s c1 he hw, hw]
          rfl
        · rw [endStream_some_err s c1 he hw, hw]
          rfl
  · intro hg
    exact step_writeOp_err s c hg
  · intro he
    exact step_endCall_err_ended s oc he
  · intro he hw
    exact step_endCall_some_err s c he hw

theorem c8_witness :
    ((destroy (init (-1))).writable = false ∧ (destroy (init (-1))).ended = false)
    ∧ step (destroy (init (-1))) (Op.writeOp []) = (destroy (init (-1)), [])
    ∧ step (destroy (init (-1))) (Op.endCall (some [])) = (destroy (init (-1)), []) :=
  ⟨⟨rfl, rfl⟩,
   (c8_illegal_state (destroy (init (-1))) [] (some [])).2.2.1 (Or.inl rfl),
   (c8_illegal_state (destroy (init (-1))) [] (some [])).2.2.2.2 rfl rfl⟩

/-- C9. Frame property of `destroy()`: it sets `readable` and `writable`
to false and replaces the buffer with an empty one, while leaving `size`,
`ended`, `encoding`, `maxSize` and the paused flag untouched; in particular
a stream destroyed with queued bytes keeps its positive `size` even though
`empty` then reports true. -/
theorem c9_destroy_frame (s : BS) :
    (destroy s).readable = false
    ∧ (destroy s).writable = false
    ∧ (destroy s)._buffer = []
    ∧ (destroy s).size = s.size
    ∧ (destroy s).ended = s.ended
    ∧ (destroy s).encoding = s.encoding
    ∧ (destroy s).maxSize = s.maxSize
    ∧ (destroy s)._wait = s._wait
    ∧ (0 < s.size → 0 < (destroy s).size ∧ (destroy s).empty = true) :=
  ⟨rfl, rfl, rfl, rfl, rfl, rfl, rfl, rfl, fun h => ⟨h, rfl⟩⟩

theorem c9_witness :
    0 < (run (init (-1)) [Op.writeOp [5]]).1.size
    ∧ (0 < (destroy (run (init (-1)) [Op.writeOp [5]]).1).size
       ∧ (destroy (run (init (-1)) [Op.writeOp [5]]).1).empty = true) :=
  ⟨by decide,
   (c9_destroy_frame (run (init (-1)) [Op.writeOp [5]]).1).2.2.2.2.2.2.2.2 (by decide)⟩

/-- C10. Zero-length writes: on a writable, non-ended stream, writing an
empty chunk succeeds and enqueues it, after which `empty` reports false
even though `size` is unchanged, because `empty` counts queued chunks
rather than bytes. -/
theorem c10_zero_length_write (s : BS) (hw : s.writable = true) (he : s.ended = false) :
    (write s []).isOk = true
    ∧ (step s (Op.writeOp [])).1._buffer = s._buffer ++ [[]]
    ∧ BS.empty (step s (Op.writeOp [])).1 = false
    ∧ (step s (Op.writeOp [])).1.size = s.size := by
  refine ⟨?_, ?_, ?_, ?_⟩
  · rw [write, if_neg (by simp [hw, he])]
    by_cases hf : (writeState s []).full = true
    · rw [if_pos hf]
      rfl
    · rw [if_neg hf]
      rfl
  · rw [step_writeOp_ok s [] hw he]
    by_cases hf : (writeState s []).full = true
    · rw [if_pos hf]
      simp
    · rw [if_neg hf]
      simp
  · rw [step_writeOp_ok s [] hw he]
    by_cases hf : (writeState s []).full = true
    · rw [if_pos hf]
      simp [BS.empty]
    · rw [if_neg hf]
      simp [BS.empty]
  · rw [step_writeOp_ok s [] hw he]
    by_cases hf : (writeState s []).full = true
    · rw [if_pos hf]
      simp
    · rw [if_neg hf]
      simp

theorem c10_witness :
    ((init (-1)).writable = true ∧ (init (-1)).ended = false)
    ∧ (write (init (-1)) []).isOk = true
    ∧ BS.empty (step (init (-1)) (Op.writeOp [])).1 = false
    ∧ (step (init (-1)) (Op.writeOp [])).1.size = (init (-1)).size :=
  ⟨⟨rfl, rfl⟩,
   (c10_zero_length_write (init (-1)) rfl rfl).1,
   (c10_zero_length_write (init (-1)) rfl rfl).2.2.1,
   (c10_zero_length_write (init (-1)) rfl rfl).2.2.2⟩
